import Mathlib

/-!
# Glob matching and watch-set building of the task runner

A shallow embedding of `internal/fingerprint/glob.go` and of the watch
orchestration in `watch.go`.

* Paths are `String`s.  Go compares strings byte-wise; on UTF-8 text that is the
  lexicographic order of the code points, which is the order of `String` here.
* A Go `map[string]bool` is an association list with pairwise distinct keys.
  The order in which `range` visits a map is not specified by Go; it is a
  field of the `World`, constrained only to be a permutation of the entries.
* The collaborators outside the two source files (`filepathext.SmartJoin`,
  `execext.Expand`, `zglob.GlobFollowSymlinks`, `os.Stat`, `filepath.Dir`,
  `filepath.Rel`) are fields of the `World`.
-/

set_option autoImplicit false
set_option linter.dupNamespace false

/-- Go `error` values that are not nil. -/
abbrev Error := String

/-! ## Data model -/

namespace ast

/-- Variables of a call; opaque at this layer. -/
abbrev Vars := List (String × String)

/-- The type `ast.Glob`: a pattern and its negation flag. -/
structure Glob where
  Glob : String
  Negate : Bool
deriving DecidableEq, Repr

/-- The type `ast.Call`: a task name and the variables of the invocation. -/
structure Call where
  Task : String
  Vars : Vars
deriving DecidableEq, Repr

/-- The type `ast.Dep`, restricted to the fields read by the watcher. -/
structure Dep where
  Task : String
  Vars : Vars
deriving DecidableEq, Repr

/-- The type `ast.Cmd`, restricted to the fields read by the watcher. -/
structure Cmd where
  Cmd : String
  Task : String
  Vars : Vars
deriving DecidableEq, Repr

/-- The type `ast.Task`, restricted to the fields read by the watcher. -/
structure Task where
  Dir : String
  Sources : List Glob
  Deps : List Dep
  Cmds : List Cmd
deriving DecidableEq, Repr

end ast

/-- The file kinds that the type bits of an `os.FileMode` distinguish. -/
inductive FileMode where
  | regular
  | dir
  | namedPipe
  | socket
  | device
  | charDevice
  | irregular
deriving DecidableEq, Repr

/-- The result of a successful `os.Stat`. -/
structure FileInfo where
  Mode : FileMode
deriving DecidableEq, Repr

/-- The method `FileInfo.IsDir`. -/
def FileInfo.IsDir (info : FileInfo) : Bool :=
  decide (info.Mode = FileMode.dir)

/-- A Go `map[string]bool`: its entries, with pairwise distinct keys. -/
abbrev GoMap := List (String × Bool)

/-- The assignment `m[k] = v`. -/
def GoMap.set (m : GoMap) (k : String) (v : Bool) : GoMap :=
  m.filter (fun e => decide (e.1 ≠ k)) ++ [(k, v)]

/-- The lookup `m[k]`, false for an absent key. -/
def GoMap.get (m : GoMap) (k : String) : Bool :=
  match m.find? (fun e => decide (e.1 = k)) with
  | some e => e.2
  | none => false

/-- The keys of a map are pairwise distinct. -/
def GoMap.WF (m : GoMap) : Prop :=
  (m.map Prod.fst).Nodup

/-- The state of the outside world during one call: the filesystem, the
environment, and the order in which `range` visits the entries of a map. -/
structure World where
  /-- The function `filepathext.SmartJoin`. -/
  SmartJoin : String → String → String
  /-- The function `execext.Expand`. -/
  Expand : String → Except Error String
  /-- The function `zglob.GlobFollowSymlinks`. -/
  GlobFollowSymlinks : String → Except Error (List String)
  /-- The function `os.Stat`. -/
  Stat : String → Except Error FileInfo
  /-- The function `filepath.Dir`. -/
  Dir : String → String
  /-- The function `filepath.Rel`. -/
  Rel : String → String → Except Error String
  /-- The order in which `range` visits the entries of a map. -/
  rangeOrder : GoMap → GoMap
  /-- A `range` loop visits every entry exactly once. -/
  rangeOrder_perm : ∀ m : GoMap, (rangeOrder m).Perm m

/-! ## `internal/fingerprint/glob.go` -/

namespace Fingerprint

/-- The call `sort.Strings`: ascending byte-wise order. -/
def sortStrings (keys : List String) : List String :=
  List.insertionSort (fun a b : String => a.data ≤ b.data) keys

/-- The function `collectKeys`: the keys whose value is true, visited in the
order of `range`, then sorted. -/
def collectKeys (x : World) (m : GoMap) : List String :=
  sortStrings
    ((x.rangeOrder m).foldl (fun keys e => if e.2 then keys ++ [e.1] else keys) [])

/-- The loop of `glob` over the expanded paths `fs`, from the map `results`. -/
def statLoop (x : World) (dirOnly : Bool) : List String → GoMap → Except Error GoMap
  | [], results => Except.ok results
  | f :: fs, results =>
    match x.Stat f with
    | Except.error err => Except.error err
    | Except.ok info =>
      if dirOnly then
        if info.IsDir then
          statLoop x dirOnly fs (results.set f true)
        else
          statLoop x dirOnly fs (results.set (x.Dir f) true)
      else if info.IsDir then
        statLoop x dirOnly fs results
      else
        statLoop x dirOnly fs (results.set f true)

/-- The key that one pass of the loop of `glob` writes for the expanded path
`f` whose stat is `info`, if it writes one. -/
def recorded (x : World) (dirOnly : Bool) (f : String) (info : FileInfo) : Option String :=
  if dirOnly then
    if info.IsDir then some f else some (x.Dir f)
  else if info.IsDir then none
  else some f

/-- The function `glob`: the matches of one pattern. -/
def glob (x : World) (dir : String) (g : String) (dirOnly : Bool) :
    Except Error (List String) :=
  match x.Expand (x.SmartJoin dir g) with
  | Except.error err => Except.error err
  | Except.ok g1 =>
    match x.GlobFollowSymlinks g1 with
    | Except.error err => Except.error err
    | Except.ok fs =>
      match statLoop x dirOnly fs [] with
      | Except.error err => Except.error err
      | Except.ok results => Except.ok (collectKeys x results)

/-- The conditions under which `glob` returns an error. -/
def globFails (x : World) (dir g : String) : Prop :=
  (∃ err, x.Expand (x.SmartJoin dir g) = Except.error err) ∨
  (∃ g1 err, x.Expand (x.SmartJoin dir g) = Except.ok g1 ∧
    x.GlobFollowSymlinks g1 = Except.error err) ∨
  (∃ g1 fs, x.Expand (x.SmartJoin dir g) = Except.ok g1 ∧
    x.GlobFollowSymlinks g1 = Except.ok fs ∧ ∃ f ∈ fs, ∃ err, x.Stat f = Except.error err)

/-- The inner loop of `globs`: `resultMap[match] = !g.Negate` for every match. -/
def recordMatches (negate : Bool) (ms : List String) (resultMap : GoMap) : GoMap :=
  ms.foldl (fun m k => GoMap.set m k (!negate)) resultMap

/-- The outer loop of `globs` over the patterns, from the map `resultMap`. -/
def globsLoop (x : World) (dir : String) (dirOnly : Bool) : List ast.Glob → GoMap → GoMap
  | [], resultMap => resultMap
  | g :: gs, resultMap =>
    match glob x dir g.Glob dirOnly with
    | Except.error _ => globsLoop x dir dirOnly gs resultMap
    | Except.ok ms => globsLoop x dir dirOnly gs (recordMatches g.Negate ms resultMap)

/-- The function `globs`: the returned slice and the returned error. -/
def globs (x : World) (dir : String) (gs : List ast.Glob) (dirOnly : Bool) :
    List String × Option Error :=
  (collectKeys x (globsLoop x dir dirOnly gs []), none)

/-- The function `Globs`. -/
def Globs (x : World) (dir : String) (gs : List ast.Glob) : List String × Option Error :=
  globs x dir gs false

/-- The function `GlobsDirs`. -/
def GlobsDirs (x : World) (dir : String) (gs : List ast.Glob) : List String × Option Error :=
  globs x dir gs true

/-- The directory that directory mode is said to give for an expanded path:
the path itself when it stats as a directory, else its parent. -/
def dirTarget (x : World) (f : String) : String :=
  match x.Stat f with
  | Except.ok info => if info.IsDir then f else x.Dir f
  | Except.error _ => f

/-- The pattern `g` contributes the path `p`: its expansion succeeds and `p` is
among its matches. -/
def contributes (x : World) (dir : String) (dirOnly : Bool) (g : ast.Glob) (p : String) :
    Bool :=
  match glob x dir g.Glob dirOnly with
  | Except.ok ms => decide (p ∈ ms)
  | Except.error _ => false

end Fingerprint

/-! ## `watch.go` -/

namespace Watch

open Fingerprint

/-- The type `fsnotify.Event`: a path and a bit set of operations. -/
structure Event where
  Name : String
  Op : Nat
deriving DecidableEq, Repr

/-- The constant `fsnotify.Create`. -/
def Create : Nat := 1

/-- The constant `fsnotify.Write`. -/
def Write : Nat := 2

/-- The constant `fsnotify.Remove`. -/
def Remove : Nat := 4

/-- The constant `fsnotify.Rename`. -/
def Rename : Nat := 8

/-- The constant `fsnotify.Chmod`. -/
def Chmod : Nat := 16

/-- The part of the `Executor` that watching reads: its directory and the two
ways of resolving a call to a task. -/
structure Executor where
  Dir : String
  CompiledTask : ast.Call → Except Error ast.Task
  GetTask : ast.Call → Except Error ast.Task

/-- The `fsnotify.Watcher`: the paths passed to `Add` so far, in call order,
and whether an `Add` of a path fails after a given history. -/
structure Watcher where
  addCalls : List String
  addFails : List String → String → Option Error

/-- The method `Watcher.Add`: the watcher afterwards and the returned error. -/
def Watcher.Add (w : Watcher) (d : String) : Watcher × Option Error :=
  ({ w with addCalls := w.addCalls ++ [d] }, w.addFails w.addCalls d)

/-- The call `strings.Contains`. -/
def stringsContains (s substr : String) : Bool :=
  s.data.tails.any (fun t => substr.data.isPrefixOf t)

/-- The call `strings.HasSuffix`. -/
def stringsHasSuffix (s suffix : String) : Bool :=
  suffix.data.isSuffixOf s.data

/-- The slice `ignorePaths` of `ShouldIgnoreFile`. -/
def ignorePaths : List String :=
  ["/.task", "/.git", "/.hg", "/node_modules"]

/-- The function `ShouldIgnoreFile`. -/
def ShouldIgnoreFile (path : String) : Bool :=
  ignorePaths.any (fun p => stringsContains path (p ++ "/") || stringsHasSuffix path p)

/-- The names that the ignore policy lists as path segments. -/
def ignoredNames : List String :=
  [".task", ".git", ".hg", "node_modules"]

/-- The first `/`-separated segment of a path and the segments after it. -/
def splitSlash : List Char → List Char × List (List Char)
  | [] => ([], [])
  | c :: cs =>
    if c = '/' then ([], (splitSlash cs).1 :: (splitSlash cs).2)
    else (c :: (splitSlash cs).1, (splitSlash cs).2)

/-- The `/`-separated segments of a path, as `strings.Split(path, "/")` gives
them. -/
def segments (path : String) : List String :=
  ((splitSlash path.data).1 :: (splitSlash path.data).2).map String.mk

/-- The variables of `registerWatchedDirs` that its closure mutates: the map
`watchedDirs` and the watcher. -/
structure RegState where
  watchedDirs : GoMap
  w : Watcher

/-- How a call of `registerTaskDirs` ends: it returns nil, it returns an
error, or the recursion is cut off by the depth bound. -/
inductive Ret where
  | nil
  | err (e : Error)
  | outOfFuel
deriving DecidableEq, Repr

/-- The loop of `registerTaskDirs` over the directories `dirs`. -/
def addDirs : List String → RegState → RegState × Ret
  | [], st => (st, Ret.nil)
  | d :: ds, st =>
    if st.watchedDirs.get d then
      addDirs ds st
    else if ShouldIgnoreFile d then
      addDirs ds st
    else
      match st.w.Add d with
      | (w1, some err) => ({ st with w := w1 }, Ret.err err)
      | (w1, none) => addDirs ds { watchedDirs := st.watchedDirs.set d true, w := w1 }

/-- The loop of `registerTaskDirs` over `task.Deps`, `rec` being the recursive
call. -/
def forDeps (rec : ast.Call → RegState → RegState × Ret) :
    List ast.Dep → RegState → RegState × Ret
  | [], st => (st, Ret.nil)
  | d :: ds, st =>
    match rec { Task := d.Task, Vars := d.Vars } st with
    | (st1, Ret.nil) => forDeps rec ds st1
    | r => r

/-- The loop of `registerTaskDirs` over `task.Cmds`, `rec` being the recursive
call. -/
def forCmds (rec : ast.Call → RegState → RegState × Ret) :
    List ast.Cmd → RegState → RegState × Ret
  | [], st => (st, Ret.nil)
  | c :: cs, st =>
    if c.Task ≠ "" then
      match rec { Task := c.Task, Vars := c.Vars } st with
      | (st1, Ret.nil) => forCmds rec cs st1
      | r => r
    else
      forCmds rec cs st

/-- The closure `registerTaskDirs`, with a bound on the depth of its recursion. -/
def registerTaskDirs (x : World) (e : Executor) : Nat → ast.Call → RegState → RegState × Ret
  | 0, _, st => (st, Ret.outOfFuel)
  | fuel + 1, c, st =>
    match e.CompiledTask c with
    | Except.error err => (st, Ret.err err)
    | Except.ok task =>
      match forDeps (registerTaskDirs x e fuel) task.Deps st with
      | (st1, Ret.nil) =>
        match forCmds (registerTaskDirs x e fuel) task.Cmds st1 with
        | (st2, Ret.nil) =>
          match GlobsDirs x task.Dir task.Sources with
          | (_, some err) => (st2, Ret.err err)
          | (dirs, none) => addDirs dirs st2
        | r => r
      | r => r

/-- The final loop of `registerWatchedDirs` over the calls. -/
def forCalls (rec : ast.Call → RegState → RegState × Ret) :
    List ast.Call → RegState → RegState × Ret
  | [], st => (st, Ret.nil)
  | c :: cs, st =>
    match rec c st with
    | (st1, Ret.nil) => forCalls rec cs st1
    | r => r

/-- The method `registerWatchedDirs`, with a bound on the depth of the
recursion of its closure. -/
def registerWatchedDirs (x : World) (e : Executor) (fuel : Nat) (w : Watcher)
    (calls : List ast.Call) : RegState × Ret :=
  forCalls (registerTaskDirs x e fuel) calls { watchedDirs := [], w := w }

/-- The state between two statements of `registerWatchedDirs`: the paths passed
to `Add` since `base` are pairwise distinct, each is a key of `watchedDirs`
with value true, and none is ignored. -/
def Inv (base : List String) (st : RegState) : Prop :=
  GoMap.WF st.watchedDirs ∧
  ∃ new, st.w.addCalls = base ++ new ∧ new.Nodup ∧
    (∀ d ∈ new, st.watchedDirs.get d = true) ∧ (∀ d ∈ new, ShouldIgnoreFile d = false)

/-- The state when `registerWatchedDirs` has returned: the paths passed to
`Add` since `base` are pairwise distinct and none is ignored. -/
def Final (base : List String) (st : RegState) : Prop :=
  ∃ new, st.w.addCalls = base ++ new ∧ new.Nodup ∧ ∀ d ∈ new, ShouldIgnoreFile d = false

/-- From `st` to `st1` the watched set and the history of `Add` only grow. -/
def Grows (st st1 : RegState) : Prop :=
  (∀ d, st.watchedDirs.get d = true → st1.watchedDirs.get d = true) ∧
  st.w.addCalls <+: st1.w.addCalls ∧ st1.w.addFails = st.w.addFails

/-- A step of `registerWatchedDirs` that keeps the invariant when it returns
nil, and in every case leaves a final state and only grows the state. -/
def Good (f : RegState → RegState × Ret) : Prop :=
  ∀ base st, Inv base st →
    Final base (f st).1 ∧ Grows st (f st).1 ∧ ((f st).2 = Ret.nil → Inv base (f st).1)

/-- What the goroutine started for one call on one event does. -/
inductive Reaction where
  | logError (e : Error)
  | skipped (relPath : String)
  | runTask
deriving DecidableEq, Repr

/-- The value of `relPath` after `relPath, _ := filepath.Rel(e.Dir, event.Name)`:
the empty string when `filepath.Rel` fails. -/
def relPath (x : World) (e : Executor) (event : Event) : String :=
  match x.Rel e.Dir event.Name with
  | Except.ok r => r
  | Except.error _ => ""

/-- The body of the goroutine that `watchTasks` starts for the call `c` on an
event. -/
def react (x : World) (e : Executor) (event : Event) (c : ast.Call) : Reaction :=
  match e.GetTask c with
  | Except.error err => Reaction.logError err
  | Except.ok t =>
    match Globs x t.Dir t.Sources with
    | (_, some err) => Reaction.logError err
    | (files, none) =>
      if !files.contains (relPath x e event) then Reaction.skipped (relPath x e event)
      else Reaction.runTask

/-- What one received event makes the loop of `watchTasks` do: whether
`Compiler.ResetCache` is called, and the reaction of the goroutine of each call. -/
structure EventStep where
  resetCache : Bool
  reactions : List (ast.Call × Reaction)
deriving DecidableEq, Repr

/-- The case `event, ok := <-w.Events` of `watchTasks` with `ok` true. -/
def onEvent (x : World) (e : Executor) (calls : List ast.Call) (event : Event) : EventStep :=
  if event.Op = Chmod then
    { resetCache := false, reactions := [] }
  else
    { resetCache := true, reactions := calls.map (fun c => (c, react x e event c)) }

/-- The calls of which an event starts a new execution (`e.RunTask`). -/
def started (x : World) (e : Executor) (calls : List ast.Call) (event : Event) :
    List ast.Call :=
  ((onEvent x e calls event).reactions.filter
    (fun r => decide (r.2 = Reaction.runTask))).map Prod.fst

end Watch

/-! ## A concrete world

A project directory `/proj` holding the regular files `main.go`, `a/x.go`,
`a/y.txt`, `.git/config` and `node_modules/pkg/index.js`, the named pipe
`fifo`, and the dangling symbolic link `b/dangling`. -/

namespace Demo

/-- The parent of a clean path, as `filepath.Dir` gives it. -/
def parentDir (f : String) : String :=
  if '/' ∈ f.data then
    match ((f.data.reverse.dropWhile (fun c => decide (c ≠ '/'))).drop 1).reverse with
    | [] => "/"
    | cs => String.mk cs
  else "."

/-- The absolute form of a path or pattern, the working directory of the
process being `/proj`. -/
def absolute (f : String) : String :=
  if f.data.head? = some '/' then f
  else if f = "." then "/proj"
  else "/proj/" ++ f

/-- The stat of the entries of the project, by absolute path. -/
def statAbs (f : String) : Except Error FileInfo :=
  if f = "/proj" ∨ f = "/proj/a" ∨ f = "/proj/b" ∨ f = "/proj/.git"
      ∨ f = "/proj/node_modules" ∨ f = "/proj/node_modules/pkg" then
    Except.ok { Mode := FileMode.dir }
  else if f = "/proj/main.go" ∨ f = "/proj/a/x.go" ∨ f = "/proj/a/y.txt"
      ∨ f = "/proj/.git/config" ∨ f = "/proj/node_modules/pkg/index.js" then
    Except.ok { Mode := FileMode.regular }
  else if f = "/proj/fifo" then
    Except.ok { Mode := FileMode.namedPipe }
  else
    Except.error "no such file or directory"

/-- The stat of the entries of the project; a relative path is taken from the
working directory. -/
def stat (f : String) : Except Error FileInfo :=
  statAbs (absolute f)

/-- The expansion of the absolute patterns used below over the project. -/
def zglobAbs (g : String) : Except Error (List String) :=
  if g = "/proj/a/*.go" then Except.ok ["/proj/a/x.go"]
  else if g = "/proj/a/*.txt" then Except.ok ["/proj/a/y.txt"]
  else if g = "/proj/a/*" then Except.ok ["/proj/a/x.go", "/proj/a/y.txt"]
  else if g = "/proj/*" then
    Except.ok
      ["/proj/.git", "/proj/a", "/proj/b", "/proj/fifo", "/proj/main.go", "/proj/node_modules"]
  else if g = "/proj/*.go" then Except.ok ["/proj/main.go"]
  else if g = "/proj/b/*" then Except.ok ["/proj/b/dangling"]
  else if g = "/proj/.git/*" then Except.ok ["/proj/.git/config"]
  else if g = "/proj/node_modules/pkg/*" then Except.ok ["/proj/node_modules/pkg/index.js"]
  else Except.error "file does not exist"

/-- The expansion of the patterns used below over the project; a relative
pattern is expanded from the working directory and gives relative paths. -/
def zglob (g : String) : Except Error (List String) :=
  if g.data.head? = some '/' then zglobAbs g
  else
    match zglobAbs (absolute g) with
    | Except.ok fs => Except.ok (fs.map (fun f => String.mk (f.data.drop 6)))
    | Except.error err => Except.error err

/-- The project as a world: an absolute pattern is kept, a relative one is
joined to the base directory, a pattern that ends in `$\x7bHOME` fails to
expand, and `range` visits a map backwards. -/
def world : World where
  SmartJoin := fun dir g =>
    if g.data.head? = some '/' then g else if dir = "." then g else dir ++ "/" ++ g
  Expand := fun g =>
    if "$\x7bHOME".data.isSuffixOf g.data then Except.error "bad substitution"
    else Except.ok g
  GlobFollowSymlinks := zglob
  Stat := stat
  Dir := parentDir
  Rel := fun base targ =>
    if (base ++ "/").data.isPrefixOf targ.data then
      Except.ok (String.mk (targ.data.drop (base ++ "/").data.length))
    else Except.error "cannot make relative"
  rangeOrder := List.reverse
  rangeOrder_perm := fun m => List.reverse_perm m

/-- The tasks of the project: `build` depends on `gen` and runs `lint` as a
command, `loop` depends on itself. -/
def tasks (dir : String) (c : ast.Call) : Except Error ast.Task :=
  if c.Task = "build" then
    Except.ok
      { Dir := dir
        Sources := [⟨"a/*.go", false⟩, ⟨"*.go", false⟩]
        Deps := [⟨"gen", []⟩]
        Cmds := [⟨"go build", "", []⟩, ⟨"", "lint", []⟩] }
  else if c.Task = "gen" then
    Except.ok { Dir := dir, Sources := [⟨"a/*", false⟩], Deps := [], Cmds := [] }
  else if c.Task = "lint" then
    Except.ok
      { Dir := dir
        Sources := [⟨"*.go", false⟩, ⟨".git/*", false⟩, ⟨"node_modules/pkg/*", false⟩]
        Deps := []
        Cmds := [] }
  else if c.Task = "loop" then
    Except.ok { Dir := dir, Sources := [], Deps := [⟨"loop", []⟩], Cmds := [] }
  else
    Except.error "task not found"

/-- The executor of the project: a compiled task has the absolute directory,
a task that is only looked up has the directory as declared. -/
def executor : Watch.Executor where
  Dir := "/proj"
  CompiledTask := tasks "/proj"
  GetTask := tasks "."

/-- A watcher that has been given no path and whose `Add` never fails. -/
def watcher : Watch.Watcher where
  addCalls := []
  addFails := fun _ _ => none

end Demo

/-! # Properties -/

/-! ## Maps -/

theorem GoMap.mem_set (m : GoMap) (k : String) (v : Bool) (a : String) (b : Bool) :
    (a, b) ∈ GoMap.set m k v ↔ (a = k ∧ b = v) ∨ (a ≠ k ∧ (a, b) ∈ m) := by
  unfold GoMap.set
  simp only [List.mem_append, List.mem_filter, List.mem_singleton, Prod.mk.injEq,
    decide_eq_true_eq]
  tauto

theorem GoMap.mem_set_true (m : GoMap) (k : String) (a : String) :
    (a, true) ∈ GoMap.set m k true ↔ a = k ∨ (a, true) ∈ m := by
  rw [GoMap.mem_set]
  by_cases h : a = k <;> simp [h]

theorem GoMap.WF_nil : GoMap.WF [] := by
  simp [GoMap.WF]

theorem GoMap.WF_set (m : GoMap) (k : String) (v : Bool) (h : GoMap.WF m) :
    GoMap.WF (GoMap.set m k v) := by
  unfold GoMap.WF GoMap.set at *
  rw [List.map_append, List.nodup_append]
  refine ⟨List.Nodup.sublist (List.Sublist.map _ (List.filter_sublist _)) h, by simp, ?_⟩
  intro a ha hk
  simp only [List.map_cons, List.map_nil, List.mem_singleton] at hk
  simp only [List.mem_map, List.mem_filter, decide_eq_true_eq] at ha
  obtain ⟨e, ⟨_, hne⟩, rfl⟩ := ha
  exact hne hk

theorem GoMap.WF_unique (m : GoMap) (h : GoMap.WF m) (k : String) (b c : Bool)
    (hb : (k, b) ∈ m) (hc : (k, c) ∈ m) : b = c := by
  unfold GoMap.WF at h
  have := List.inj_on_of_nodup_map h hb hc rfl
  simpa using this

theorem GoMap.get_eq_true (m : GoMap) (h : GoMap.WF m) (k : String) :
    GoMap.get m k = true ↔ (k, true) ∈ m := by
  unfold GoMap.get
  constructor
  · intro hg
    cases hf : m.find? (fun e => decide (e.1 = k)) with
    | none => simp [hf] at hg
    | some e =>
      simp only [hf] at hg
      have h1 := List.find?_some hf
      have h2 := List.mem_of_find?_eq_some hf
      simp only [decide_eq_true_eq] at h1
      obtain ⟨a, b⟩ := e
      simp only at h1 hg
      subst h1; subst hg
      exact h2
  · intro hm
    cases hf : m.find? (fun e => decide (e.1 = k)) with
    | none =>
      have := List.find?_eq_none.1 hf _ hm
      simp at this
    | some e =>
      have h1 := List.find?_some hf
      have h2 := List.mem_of_find?_eq_some hf
      simp only [decide_eq_true_eq] at h1
      obtain ⟨a, b⟩ := e
      simp only at h1
      subst h1
      exact GoMap.WF_unique m h a b true h2 hm

namespace Fingerprint

/-! ## `collectKeys` -/

theorem collect_foldl (l : GoMap) (acc : List String) :
    l.foldl (fun keys e => if e.2 then keys ++ [e.1] else keys) acc
      = acc ++ (l.filter (fun e => e.2)).map Prod.fst := by
  induction l generalizing acc with
  | nil => simp
  | cons e l ih =>
    rw [List.foldl_cons, ih]
    cases h : e.2 <;> simp [List.filter_cons, h]

theorem mem_sortStrings (l : List String) (p : String) : p ∈ sortStrings l ↔ p ∈ l := by
  unfold sortStrings
  exact List.mem_insertionSort _

theorem sortStrings_perm (l : List String) : (sortStrings l).Perm l := by
  unfold sortStrings
  exact List.perm_insertionSort _ l

theorem sortStrings_sorted_le (l : List String) :
    List.Sorted (fun a b : String => a ≤ b) (sortStrings l) := by
  unfold sortStrings
  haveI : IsTotal String (fun a b : String => a.data ≤ b.data) :=
    ⟨fun a b => by
      have := le_total a b
      simpa only [String.le_iff_toList_le] using this⟩
  haveI : IsTrans String (fun a b : String => a.data ≤ b.data) :=
    ⟨fun a b c hab hbc => by
      have h1 : a ≤ b := String.le_iff_toList_le.2 hab
      have h2 : b ≤ c := String.le_iff_toList_le.2 hbc
      exact String.le_iff_toList_le.1 (le_trans h1 h2)⟩
  have h := List.sorted_insertionSort (fun a b : String => a.data ≤ b.data) l
  exact List.Pairwise.imp (fun {a b} hab => String.le_iff_toList_le.2 hab) h

theorem sortStrings_sorted (l : List String) (h : l.Nodup) :
    List.Sorted (fun a b : String => a < b) (sortStrings l) :=
  List.Sorted.lt_of_le (sortStrings_sorted_le l) ((sortStrings_perm l).nodup_iff.2 h)

theorem sorted_ext (l₁ l₂ : List String)
    (h₁ : List.Sorted (fun a b : String => a < b) l₁)
    (h₂ : List.Sorted (fun a b : String => a < b) l₂)
    (h : ∀ p, p ∈ l₁ ↔ p ∈ l₂) : l₁ = l₂ :=
  List.eq_of_perm_of_sorted ((List.perm_ext_iff_of_nodup h₁.nodup h₂.nodup).2 h) h₁ h₂

theorem mem_collectKeys (x : World) (m : GoMap) (p : String) :
    p ∈ collectKeys x m ↔ (p, true) ∈ m := by
  unfold collectKeys
  rw [mem_sortStrings, collect_foldl]
  simp only [List.nil_append, List.mem_map, List.mem_filter]
  constructor
  · rintro ⟨⟨a, b⟩, ⟨hm, hb⟩, rfl⟩
    simp only at hb
    subst hb
    exact (x.rangeOrder_perm m).mem_iff.1 hm
  · intro hm
    exact ⟨(p, true), ⟨(x.rangeOrder_perm m).mem_iff.2 hm, rfl⟩, rfl⟩

theorem collectKeys_sorted (x : World) (m : GoMap) (h : GoMap.WF m) :
    List.Sorted (fun a b : String => a < b) (collectKeys x m) := by
  unfold collectKeys
  apply sortStrings_sorted
  rw [collect_foldl, List.nil_append]
  have hp : ((x.rangeOrder m).map Prod.fst).Nodup :=
    ((x.rangeOrder_perm m).map Prod.fst).nodup_iff.2 h
  exact List.Nodup.sublist (List.Sublist.map _ (List.filter_sublist _)) hp

end Fingerprint

namespace Fingerprint

/-! ## The loop of `glob` -/

theorem statLoop_cons_ok (x : World) (dirOnly : Bool) (f : String) (fs : List String)
    (r : GoMap) (info : FileInfo) (h : x.Stat f = Except.ok info) :
    statLoop x dirOnly (f :: fs) r
      = statLoop x dirOnly fs
          (match recorded x dirOnly f info with
            | some k => GoMap.set r k true
            | none => r) := by
  simp only [statLoop, h, recorded]
  cases dirOnly <;> cases info.IsDir <;> simp

theorem statLoop_cons_error (x : World) (dirOnly : Bool) (f : String) (fs : List String)
    (r : GoMap) (err : Error) (h : x.Stat f = Except.error err) :
    statLoop x dirOnly (f :: fs) r = Except.error err := by
  simp only [statLoop, h]

theorem statLoop_mem (x : World) (dirOnly : Bool) (fs : List String) :
    ∀ (r r' : GoMap), statLoop x dirOnly fs r = Except.ok r' → ∀ p : String,
      ((p, true) ∈ r' ↔ (p, true) ∈ r ∨
        ∃ f ∈ fs, ∃ info, x.Stat f = Except.ok info ∧ recorded x dirOnly f info = some p) := by
  induction fs with
  | nil =>
    intro r r' h p
    simp only [statLoop, Except.ok.injEq] at h
    subst h
    simp
  | cons f fs ih =>
    intro r r' h p
    cases hs : x.Stat f with
    | error err =>
      rw [statLoop_cons_error x dirOnly f fs r err hs] at h
      cases h
    | ok info =>
      rw [statLoop_cons_ok x dirOnly f fs r info hs] at h
      rw [ih _ r' h p]
      cases hr : recorded x dirOnly f info with
      | none =>
        simp only [List.mem_cons, exists_eq_or_imp, hs, Except.ok.injEq, exists_eq_left', hr]
        simp
      | some k =>
        simp only [GoMap.mem_set_true, List.mem_cons, exists_eq_or_imp, hs, Except.ok.injEq,
          exists_eq_left', hr, Option.some.injEq]
        constructor
        · rintro ((h1 | h1) | h1)
          · exact Or.inr (Or.inl h1.symm)
          · exact Or.inl h1
          · exact Or.inr (Or.inr h1)
        · rintro (h1 | h1 | h1)
          · exact Or.inl (Or.inr h1)
          · exact Or.inl (Or.inl h1.symm)
          · exact Or.inr h1

theorem statLoop_WF (x : World) (dirOnly : Bool) (fs : List String) :
    ∀ (r r' : GoMap), GoMap.WF r → statLoop x dirOnly fs r = Except.ok r' → GoMap.WF r' := by
  induction fs with
  | nil =>
    intro r r' hw h
    simp only [statLoop, Except.ok.injEq] at h
    subst h
    exact hw
  | cons f fs ih =>
    intro r r' hw h
    cases hs : x.Stat f with
    | error err =>
      rw [statLoop_cons_error x dirOnly f fs r err hs] at h
      cases h
    | ok info =>
      rw [statLoop_cons_ok x dirOnly f fs r info hs] at h
      refine ih _ r' ?_ h
      cases recorded x dirOnly f info with
      | none => exact hw
      | some k => exact GoMap.WF_set r k true hw

theorem statLoop_ok_of_stats (x : World) (dirOnly : Bool) (fs : List String) :
    ∀ r : GoMap, (∀ f ∈ fs, ∃ info, x.Stat f = Except.ok info) →
      ∃ r', statLoop x dirOnly fs r = Except.ok r' := by
  induction fs with
  | nil => intro r _; exact ⟨r, rfl⟩
  | cons f fs ih =>
    intro r h
    obtain ⟨info, hs⟩ := h f (List.mem_cons_self f fs)
    rw [statLoop_cons_ok x dirOnly f fs r info hs]
    exact ih _ (fun f' hf' => h f' (List.mem_cons_of_mem f hf'))

theorem statLoop_error_of_stat (x : World) (dirOnly : Bool) (fs : List String) :
    ∀ r : GoMap, (∃ f ∈ fs, ∃ err, x.Stat f = Except.error err) →
      ∃ err, statLoop x dirOnly fs r = Except.error err := by
  induction fs with
  | nil => intro r h; obtain ⟨f, hf, _⟩ := h; cases hf
  | cons f fs ih =>
    intro r h
    cases hs : x.Stat f with
    | error err => exact ⟨err, statLoop_cons_error x dirOnly f fs r err hs⟩
    | ok info =>
      rw [statLoop_cons_ok x dirOnly f fs r info hs]
      apply ih
      obtain ⟨f', hf', err, he⟩ := h
      rcases List.mem_cons.1 hf' with h1 | h1
      · subst h1; rw [hs] at he; cases he
      · exact ⟨f', h1, err, he⟩

theorem statLoop_stats_of_ok (x : World) (dirOnly : Bool) (fs : List String) (r r' : GoMap)
    (h : statLoop x dirOnly fs r = Except.ok r') :
    ∀ f ∈ fs, ∃ info, x.Stat f = Except.ok info := by
  intro f hf
  cases hs : x.Stat f with
  | ok info => exact ⟨info, rfl⟩
  | error err =>
    obtain ⟨err', he⟩ := statLoop_error_of_stat x dirOnly fs r ⟨f, hf, err, hs⟩
    rw [he] at h
    cases h

/-! ## `glob` -/

/-- What a successful `glob` returns: the expansion and every stat succeeded,
and the matches are the sorted recorded keys. -/
theorem glob_ok (x : World) (dir g : String) (dirOnly : Bool) (ms : List String)
    (h : glob x dir g dirOnly = Except.ok ms) :
    ∃ g1 fs, x.Expand (x.SmartJoin dir g) = Except.ok g1 ∧
      x.GlobFollowSymlinks g1 = Except.ok fs ∧
      (∀ f ∈ fs, ∃ info, x.Stat f = Except.ok info) ∧
      (∀ p, p ∈ ms ↔
        ∃ f ∈ fs, ∃ info, x.Stat f = Except.ok info ∧ recorded x dirOnly f info = some p) ∧
      List.Sorted (fun a b : String => a < b) ms := by
  unfold glob at h
  cases he : x.Expand (x.SmartJoin dir g) with
  | error err => simp [he] at h
  | ok g1 =>
    cases hz : x.GlobFollowSymlinks g1 with
    | error err => simp [he, hz] at h
    | ok fs =>
      cases hl : statLoop x dirOnly fs [] with
      | error err => simp [he, hz, hl] at h
      | ok results =>
        simp only [he, hz, hl, Except.ok.injEq] at h
        subst h
        refine ⟨g1, fs, rfl, hz, statLoop_stats_of_ok x dirOnly fs [] results hl, ?_, ?_⟩
        · intro p
          rw [mem_collectKeys, statLoop_mem x dirOnly fs [] results hl p]
          simp
        · exact collectKeys_sorted x results (statLoop_WF x dirOnly fs [] results GoMap.WF_nil hl)

/-- When the expansion and every stat succeed, `glob` succeeds. -/
theorem glob_ok_of (x : World) (dir g : String) (dirOnly : Bool) (g1 : String)
    (fs : List String) (he : x.Expand (x.SmartJoin dir g) = Except.ok g1)
    (hz : x.GlobFollowSymlinks g1 = Except.ok fs)
    (hs : ∀ f ∈ fs, ∃ info, x.Stat f = Except.ok info) :
    ∃ ms, glob x dir g dirOnly = Except.ok ms := by
  obtain ⟨r, hr⟩ := statLoop_ok_of_stats x dirOnly fs [] hs
  exact ⟨collectKeys x r, by simp [glob, he, hz, hr]⟩

theorem glob_error_of_fails (x : World) (dir g : String) (dirOnly : Bool)
    (h : globFails x dir g) : ∃ err, glob x dir g dirOnly = Except.error err := by
  rcases h with ⟨err, he⟩ | ⟨g1, err, he, hz⟩ | ⟨g1, fs, he, hz, hf⟩
  · exact ⟨err, by simp [glob, he]⟩
  · exact ⟨err, by simp [glob, he, hz]⟩
  · obtain ⟨err, hl⟩ := statLoop_error_of_stat x dirOnly fs [] hf
    exact ⟨err, by simp [glob, he, hz, hl]⟩

end Fingerprint

namespace Fingerprint

/-! ## The loops of `globs` -/

theorem mem_recordMatches (negate : Bool) (ms : List String) :
    ∀ (m : GoMap) (p : String) (b : Bool),
      (p, b) ∈ recordMatches negate ms m ↔
        (p ∈ ms ∧ b = !negate) ∨ (p ∉ ms ∧ (p, b) ∈ m) := by
  unfold recordMatches
  induction ms with
  | nil => intro m p b; simp
  | cons k ms ih =>
    intro m p b
    rw [List.foldl_cons, ih, GoMap.mem_set]
    simp only [List.mem_cons]
    by_cases h1 : p = k
    · subst h1
      by_cases h2 : p ∈ ms <;> simp [h2]
    · by_cases h2 : p ∈ ms <;> simp [h1, h2]

theorem recordMatches_WF (negate : Bool) (ms : List String) :
    ∀ m : GoMap, GoMap.WF m → GoMap.WF (recordMatches negate ms m) := by
  unfold recordMatches
  induction ms with
  | nil => intro m h; exact h
  | cons k ms ih =>
    intro m h
    rw [List.foldl_cons]
    exact ih _ (GoMap.WF_set m k _ h)

theorem globsLoop_WF (x : World) (dir : String) (dirOnly : Bool) (gs : List ast.Glob) :
    ∀ m : GoMap, GoMap.WF m → GoMap.WF (globsLoop x dir dirOnly gs m) := by
  induction gs with
  | nil => intro m h; exact h
  | cons g gs ih =>
    intro m h
    unfold globsLoop
    cases glob x dir g.Glob dirOnly with
    | error err => exact ih m h
    | ok ms => exact ih _ (recordMatches_WF g.Negate ms m h)

theorem globsLoop_append (x : World) (dir : String) (dirOnly : Bool) (gs hs : List ast.Glob) :
    ∀ m : GoMap, globsLoop x dir dirOnly (gs ++ hs) m
      = globsLoop x dir dirOnly hs (globsLoop x dir dirOnly gs m) := by
  induction gs with
  | nil => intro m; rfl
  | cons g gs ih =>
    intro m
    simp only [List.cons_append, globsLoop]
    cases glob x dir g.Glob dirOnly with
    | error err => exact ih m
    | ok ms => exact ih _

theorem mem_globsLoop_single (x : World) (dir : String) (dirOnly : Bool) (g : ast.Glob)
    (m : GoMap) (p : String) :
    (p, true) ∈ globsLoop x dir dirOnly [g] m ↔
      (contributes x dir dirOnly g p = true ∧ g.Negate = false) ∨
      (contributes x dir dirOnly g p = false ∧ (p, true) ∈ m) := by
  unfold contributes
  simp only [globsLoop]
  cases glob x dir g.Glob dirOnly with
  | error err => simp
  | ok ms =>
    simp only [mem_recordMatches, decide_eq_true_eq, decide_eq_false_iff_not]
    cases g.Negate <;> simp

/-- The last pattern that contributes `p` decides whether `p` is a key with
value true of the final map. -/
theorem mem_globsLoop (x : World) (dir : String) (dirOnly : Bool) (gs : List ast.Glob)
    (p : String) :
    (p, true) ∈ globsLoop x dir dirOnly gs [] ↔
      ∃ pre g post, gs = pre ++ g :: post ∧ contributes x dir dirOnly g p = true ∧
        g.Negate = false ∧ ∀ h ∈ post, contributes x dir dirOnly h p = false := by
  induction gs using List.reverseRecOn with
  | nil => simp [globsLoop]
  | append_singleton gs g ih =>
    rw [globsLoop_append, mem_globsLoop_single, ih]
    constructor
    · rintro (⟨hc, hn⟩ | ⟨hc, pre, g', post, rfl, hc', hn', hpost⟩)
      · exact ⟨gs, g, [], rfl, hc, hn, by simp⟩
      · refine ⟨pre, g', post ++ [g], by simp, hc', hn', ?_⟩
        intro h hh
        rcases List.mem_append.1 hh with h1 | h1
        · exact hpost h h1
        · rw [List.mem_singleton] at h1
          subst h1
          exact hc
    · rintro ⟨pre, g', post, heq, hc', hn', hpost⟩
      rcases List.eq_nil_or_concat post with h0 | ⟨post', l, h0⟩
      · subst h0
        obtain ⟨h1, h2⟩ := List.append_inj' heq rfl
        simp only [List.cons.injEq, and_true] at h2
        subst h2
        exact Or.inl ⟨hc', hn'⟩
      · subst h0
        have heq' : gs ++ [g] = (pre ++ g' :: post') ++ [l] := by
          rw [heq]; simp
        obtain ⟨h1, h2⟩ := List.append_inj' heq' rfl
        simp only [List.cons.injEq, and_true] at h2
        subst h2
        refine Or.inr ⟨hpost g (by simp), pre, g', post', h1, hc', hn', ?_⟩
        intro h hh
        exact hpost h (by simp [hh])

theorem mem_globs (x : World) (dir : String) (gs : List ast.Glob) (dirOnly : Bool)
    (p : String) :
    p ∈ (globs x dir gs dirOnly).1 ↔
      ∃ pre g post, gs = pre ++ g :: post ∧ contributes x dir dirOnly g p = true ∧
        g.Negate = false ∧ ∀ h ∈ post, contributes x dir dirOnly h p = false := by
  unfold globs
  rw [mem_collectKeys, mem_globsLoop]

theorem globs_sorted (x : World) (dir : String) (gs : List ast.Glob) (dirOnly : Bool) :
    List.Sorted (fun a b : String => a < b) (globs x dir gs dirOnly).1 :=
  collectKeys_sorted x _ (globsLoop_WF x dir dirOnly gs [] GoMap.WF_nil)

end Fingerprint

namespace Fingerprint

/-! ## Independence of the order of `range` -/

theorem statLoop_congr (x y : World) (hs : y.Stat = x.Stat) (hd : y.Dir = x.Dir)
    (dirOnly : Bool) (fs : List String) :
    ∀ r : GoMap, statLoop y dirOnly fs r = statLoop x dirOnly fs r := by
  induction fs with
  | nil => intro r; rfl
  | cons f fs ih =>
    intro r
    simp only [statLoop, hs, hd, ih]

theorem collectKeys_congr (x y : World) (m : GoMap) (h : GoMap.WF m) :
    collectKeys y m = collectKeys x m :=
  sorted_ext _ _ (collectKeys_sorted y m h) (collectKeys_sorted x m h)
    (fun p => by rw [mem_collectKeys, mem_collectKeys])

theorem glob_congr (x y : World) (hj : y.SmartJoin = x.SmartJoin) (he : y.Expand = x.Expand)
    (hz : y.GlobFollowSymlinks = x.GlobFollowSymlinks) (hs : y.Stat = x.Stat)
    (hd : y.Dir = x.Dir) (dir g : String) (dirOnly : Bool) :
    glob y dir g dirOnly = glob x dir g dirOnly := by
  unfold glob
  rw [hj, he, hz]
  cases h1 : x.Expand (x.SmartJoin dir g) with
  | error err => rfl
  | ok g1 =>
    cases h2 : x.GlobFollowSymlinks g1 with
    | error err => simp only [h2]
    | ok fs =>
      simp only [h2, statLoop_congr x y hs hd dirOnly fs []]
      cases hl : statLoop x dirOnly fs [] with
      | error err => rfl
      | ok results =>
        simp only
        rw [collectKeys_congr x y results
          (statLoop_WF x dirOnly fs [] results GoMap.WF_nil hl)]

theorem globsLoop_congr (x y : World)
    (hg : ∀ dir g dirOnly, glob y dir g dirOnly = glob x dir g dirOnly)
    (dir : String) (dirOnly : Bool) (gs : List ast.Glob) :
    ∀ m : GoMap, globsLoop y dir dirOnly gs m = globsLoop x dir dirOnly gs m := by
  induction gs with
  | nil => intro m; rfl
  | cons g gs ih =>
    intro m
    simp only [globsLoop, hg, ih]

theorem globs_congr (x y : World) (hj : y.SmartJoin = x.SmartJoin) (he : y.Expand = x.Expand)
    (hz : y.GlobFollowSymlinks = x.GlobFollowSymlinks) (hs : y.Stat = x.Stat)
    (hd : y.Dir = x.Dir) (dir : String) (gs : List ast.Glob) (dirOnly : Bool) :
    globs y dir gs dirOnly = globs x dir gs dirOnly := by
  unfold globs
  rw [globsLoop_congr x y (glob_congr x y hj he hz hs hd) dir dirOnly gs [],
    collectKeys_congr x y _ (globsLoop_WF x dir dirOnly gs [] GoMap.WF_nil)]

/-! ## Contribution of one pattern -/

theorem contributes_iff (x : World) (dir : String) (dirOnly : Bool) (g : ast.Glob)
    (p : String) :
    contributes x dir dirOnly g p = true ↔
      ∃ g1 fs, x.Expand (x.SmartJoin dir g.Glob) = Except.ok g1 ∧
        x.GlobFollowSymlinks g1 = Except.ok fs ∧
        (∀ f ∈ fs, ∃ info, x.Stat f = Except.ok info) ∧
        ∃ f ∈ fs, ∃ info, x.Stat f = Except.ok info ∧ recorded x dirOnly f info = some p := by
  unfold contributes
  constructor
  · intro h
    cases hg : glob x dir g.Glob dirOnly with
    | error err => simp [hg] at h
    | ok ms =>
      simp only [hg, decide_eq_true_eq] at h
      obtain ⟨g1, fs, he, hz, hs, hm, _⟩ := glob_ok x dir g.Glob dirOnly ms hg
      exact ⟨g1, fs, he, hz, hs, (hm p).1 h⟩
  · rintro ⟨g1, fs, he, hz, hs, hf⟩
    obtain ⟨ms, hg⟩ := glob_ok_of x dir g.Glob dirOnly g1 fs he hz hs
    obtain ⟨g1', fs', he', hz', _, hm, _⟩ := glob_ok x dir g.Glob dirOnly ms hg
    rw [he] at he'
    cases he'
    rw [hz] at hz'
    cases hz'
    simp only [hg, decide_eq_true_eq]
    exact (hm p).2 hf

theorem exists_last (C : ast.Glob → Bool) (gs : List ast.Glob) (h : ∃ g ∈ gs, C g = true) :
    ∃ pre g post, gs = pre ++ g :: post ∧ C g = true ∧ ∀ k ∈ post, C k = false := by
  induction gs with
  | nil => obtain ⟨g, hg, _⟩ := h; cases hg
  | cons a t ih =>
    by_cases ht : ∃ g ∈ t, C g = true
    · obtain ⟨pre, g, post, rfl, hc, hp⟩ := ih ht
      exact ⟨a :: pre, g, post, rfl, hc, hp⟩
    · obtain ⟨g, hg, hc⟩ := h
      rcases List.mem_cons.1 hg with h1 | h1
      · subst h1
        refine ⟨[], g, t, rfl, hc, ?_⟩
        intro k hk
        cases hck : C k with
        | false => rfl
        | true => exact absurd ⟨k, hk, hck⟩ ht
      · exact absurd ⟨g, h1, hc⟩ ht

theorem last_unique (C : ast.Glob → Bool) (pre post pre0 post0 : List ast.Glob)
    (g g0 : ast.Glob) (h : pre ++ g :: post = pre0 ++ g0 :: post0)
    (hc : C g = true) (hp : ∀ k ∈ post, C k = false)
    (hc0 : C g0 = true) (hp0 : ∀ k ∈ post0, C k = false) : g = g0 := by
  rcases List.append_eq_append_iff.1 h with ⟨a, _, h2⟩ | ⟨a, _, h2⟩
  · cases a with
    | nil =>
      simp only [List.nil_append, List.cons.injEq] at h2
      exact h2.1
    | cons b a =>
      simp only [List.cons_append, List.cons.injEq] at h2
      have hmem : g0 ∈ post := by rw [h2.2]; simp
      rw [hp g0 hmem] at hc0
      cases hc0
  · cases a with
    | nil =>
      simp only [List.nil_append, List.cons.injEq] at h2
      exact h2.1.symm
    | cons b a =>
      simp only [List.cons_append, List.cons.injEq] at h2
      have hmem : g ∈ post0 := by rw [h2.2]; simp
      rw [hp0 g hmem] at hc
      cases hc

end Fingerprint

namespace Fingerprint

/-! ## The claims on the glob matcher -/

/-- C1: last pattern wins. A path is in the result of `Globs`, and likewise of
`GlobsDirs`, exactly when some pattern of the list contributes it and the last
pattern in declared order that contributes it is not negated. -/
theorem last_pattern_wins (x : World) (dir : String) (gs : List ast.Glob) (p : String) :
    (p ∈ (Globs x dir gs).1 ↔
      ∃ pre g post, gs = pre ++ g :: post ∧ contributes x dir false g p = true ∧
        g.Negate = false ∧ ∀ h ∈ post, contributes x dir false h p = false) ∧
    (p ∈ (GlobsDirs x dir gs).1 ↔
      ∃ pre g post, gs = pre ++ g :: post ∧ contributes x dir true g p = true ∧
        g.Negate = false ∧ ∀ h ∈ post, contributes x dir true h p = false) :=
  ⟨mem_globs x dir gs false p, mem_globs x dir gs true p⟩

/-- C1 on the project: `a/x.go`, excluded by the negated second pattern, is
included again by the third, and `a/y.txt` stays excluded. -/
theorem last_pattern_wins_witness :
    "/proj/a/x.go" ∈
        (Globs Demo.world "/proj"
          [⟨"a/*", false⟩, ⟨"a/*", true⟩, ⟨"a/*.go", false⟩]).1 ∧
      "/proj/a/y.txt" ∉
        (Globs Demo.world "/proj"
          [⟨"a/*", false⟩, ⟨"a/*", true⟩, ⟨"a/*.go", false⟩]).1 :=
  ⟨(last_pattern_wins Demo.world "/proj"
      [⟨"a/*", false⟩, ⟨"a/*", true⟩, ⟨"a/*.go", false⟩] "/proj/a/x.go").1.2
      ⟨[⟨"a/*", false⟩, ⟨"a/*", true⟩], ⟨"a/*.go", false⟩, [], rfl, by decide, rfl,
        by decide⟩,
    by decide⟩

/-- C2: the lists returned by `Globs` and by `GlobsDirs` are strictly ascending
in the order of strings, hence sorted and without a repeated path, and they do
not depend on the order in which `range` visits a map. -/
theorem output_sorted_nodup (x : World) (dir : String) (gs : List ast.Glob) :
    List.Sorted (fun a b : String => a < b) (Globs x dir gs).1 ∧
    (Globs x dir gs).1.Nodup ∧
    List.Sorted (fun a b : String => a < b) (GlobsDirs x dir gs).1 ∧
    (GlobsDirs x dir gs).1.Nodup ∧
    ∀ (order : GoMap → GoMap) (horder : ∀ m : GoMap, (order m).Perm m),
      Globs { x with rangeOrder := order, rangeOrder_perm := horder } dir gs = Globs x dir gs ∧
      GlobsDirs { x with rangeOrder := order, rangeOrder_perm := horder } dir gs
        = GlobsDirs x dir gs :=
  ⟨globs_sorted x dir gs false, (globs_sorted x dir gs false).nodup,
    globs_sorted x dir gs true, (globs_sorted x dir gs true).nodup,
    fun order horder =>
      ⟨globs_congr x { x with rangeOrder := order, rangeOrder_perm := horder }
          rfl rfl rfl rfl rfl dir gs false,
        globs_congr x { x with rangeOrder := order, rangeOrder_perm := horder }
          rfl rfl rfl rfl rfl dir gs true⟩⟩

/-- C2 on the project: visiting the maps in insertion order instead of
backwards gives the same list. -/
theorem output_sorted_nodup_witness :
    (∀ m : GoMap, (id m).Perm m) ∧
      Globs { Demo.world with rangeOrder := id, rangeOrder_perm := fun m => List.Perm.refl m }
          "/proj" [⟨"*", false⟩, ⟨"a/*", false⟩]
        = Globs Demo.world "/proj" [⟨"*", false⟩, ⟨"a/*", false⟩] :=
  ⟨fun m => List.Perm.refl m,
    ((output_sorted_nodup Demo.world "/proj" [⟨"*", false⟩, ⟨"a/*", false⟩]).2.2.2.2 id
      (fun m => List.Perm.refl m)).1⟩

/-- C3: a failing pattern is the same as an absent pattern. When the expansion
of a pattern fails, or the stat of one of its expanded paths fails, `Globs` and
`GlobsDirs` return what they return for the list without that pattern, and the
returned error is nil. -/
theorem failing_pattern_is_absent (x : World) (dir : String) (pre post : List ast.Glob)
    (g : ast.Glob) (h : globFails x dir g.Glob) :
    Globs x dir (pre ++ g :: post) = Globs x dir (pre ++ post) ∧
    GlobsDirs x dir (pre ++ g :: post) = GlobsDirs x dir (pre ++ post) ∧
    (Globs x dir (pre ++ g :: post)).2 = none ∧
    (GlobsDirs x dir (pre ++ g :: post)).2 = none := by
  have key : ∀ dirOnly, globs x dir (pre ++ g :: post) dirOnly
      = globs x dir (pre ++ post) dirOnly := by
    intro dirOnly
    obtain ⟨err, he⟩ := glob_error_of_fails x dir g.Glob dirOnly h
    unfold globs
    rw [globsLoop_append, globsLoop_append]
    simp only [globsLoop, he]
  exact ⟨key false, key true, rfl, rfl⟩

/-- C3 on the project: the pattern `b/*` expands to a dangling link, and its
removal changes nothing. -/
theorem failing_pattern_is_absent_witness :
    globFails Demo.world "/proj" "b/*" ∧
      Globs Demo.world "/proj" ([⟨"a/*", false⟩] ++ ⟨"b/*", false⟩ :: [⟨"*.go", false⟩])
        = Globs Demo.world "/proj" ([⟨"a/*", false⟩] ++ [⟨"*.go", false⟩]) :=
  have hf : globFails Demo.world "/proj" "b/*" :=
    Or.inr (Or.inr ⟨"/proj/b/*", ["/proj/b/dangling"], rfl, rfl, "/proj/b/dangling",
      by simp, "no such file or directory", rfl⟩)
  ⟨hf, (failing_pattern_is_absent Demo.world "/proj" [⟨"a/*", false⟩] [⟨"*.go", false⟩]
    ⟨"b/*", false⟩ hf).1⟩

/-- C4: in directory mode the loop of `glob` records, for an expanded path, the
path itself when it stats as a directory and else exactly its `filepath.Dir`;
for one pattern that is not negated and whose expanded paths all stat,
`GlobsDirs` returns the sorted list without repetition of these directories. -/
theorem dir_mode_records_parent (x : World) (dir g g1 : String) (fs : List String)
    (he : x.Expand (x.SmartJoin dir g) = Except.ok g1)
    (hz : x.GlobFollowSymlinks g1 = Except.ok fs)
    (hs : ∀ f ∈ fs, ∃ info, x.Stat f = Except.ok info) :
    (∀ f ∈ fs, ∀ info, x.Stat f = Except.ok info →
      statLoop x true [f] [] = Except.ok [(if info.IsDir then f else x.Dir f, true)]) ∧
    GlobsDirs x dir [⟨g, false⟩] = (sortStrings ((fs.map (dirTarget x)).dedup), none) := by
  constructor
  · intro f _ info hi
    simp only [statLoop, hi, if_true]
    cases info.IsDir <;> rfl
  · unfold GlobsDirs
    have hsorted := globs_sorted x dir [⟨g, false⟩] true
    unfold globs at hsorted ⊢
    refine Prod.ext ?_ rfl
    refine sorted_ext _ _ hsorted (sortStrings_sorted _ (List.nodup_dedup _)) ?_
    intro p
    simp only
    rw [mem_collectKeys, mem_globsLoop_single, mem_sortStrings, List.mem_dedup, List.mem_map,
      contributes_iff]
    simp only [he, Except.ok.injEq, hz, exists_and_left, exists_eq_left', and_true,
      List.not_mem_nil, and_false, or_false]
    constructor
    · rintro ⟨_, f, hf, info, hi, hr⟩
      refine ⟨f, hf, ?_⟩
      simp only [dirTarget, hi]
      simp only [recorded, if_true] at hr
      cases hd : info.IsDir <;> simp [hd] at hr ⊢ <;> exact hr
    · rintro ⟨f, hf, rfl⟩
      obtain ⟨info, hi⟩ := hs f hf
      refine ⟨hs, f, hf, info, hi, ?_⟩
      simp only [dirTarget, hi, recorded, if_true]
      cases hd : info.IsDir <;> simp

/-- C4 on the project: the pattern `a/*` expands to two files of the directory
`a`, and directory mode returns that directory once. -/
theorem dir_mode_records_parent_witness :
    (Demo.world.Expand (Demo.world.SmartJoin "/proj" "a/*") = Except.ok "/proj/a/*" ∧
      Demo.world.GlobFollowSymlinks "/proj/a/*" = Except.ok ["/proj/a/x.go", "/proj/a/y.txt"] ∧
      ∀ f ∈ ["/proj/a/x.go", "/proj/a/y.txt"], ∃ info, Demo.world.Stat f = Except.ok info) ∧
    GlobsDirs Demo.world "/proj" [⟨"a/*", false⟩] = (["/proj/a"], none) :=
  have hs : ∀ f ∈ ["/proj/a/x.go", "/proj/a/y.txt"],
      ∃ info, Demo.world.Stat f = Except.ok info := by
    intro f hf
    simp only [List.mem_cons, List.mem_singleton, List.not_mem_nil, or_false] at hf
    rcases hf with rfl | rfl <;> exact ⟨_, rfl⟩
  ⟨⟨rfl, rfl, hs⟩,
    (dir_mode_records_parent Demo.world "/proj" "a/*" "/proj/a/*"
      ["/proj/a/x.go", "/proj/a/y.txt"] rfl rfl hs).2.trans (by decide)⟩

/-- C9 as stated fails: with the sources `a/*.go` and the negated `a/*.txt`,
`Globs` returns `/proj/a/x.go` and `GlobsDirs` does not return its directory
`/proj/a`. -/
theorem parent_in_dirs_counterexample :
    "/proj/a/x.go" ∈
        (Globs Demo.world "/proj" [⟨"a/*.go", false⟩, ⟨"a/*.txt", true⟩]).1 ∧
      Demo.world.Dir "/proj/a/x.go" = "/proj/a" ∧
      Demo.world.Dir "/proj/a/x.go" ∉
        (GlobsDirs Demo.world "/proj" [⟨"a/*.go", false⟩, ⟨"a/*.txt", true⟩]).1 := by
  decide

/-- C9 amended: a file returned by `Globs` has a pattern of the list that
contributes its parent directory in directory mode, and `GlobsDirs` returns
that directory exactly when the last pattern of the list that contributes it
in directory mode is not negated. -/
theorem parent_in_dirs_iff_last_not_negated (x : World) (dir : String) (gs : List ast.Glob)
    (f : String) (hf : f ∈ (Globs x dir gs).1) :
    (∃ g ∈ gs, contributes x dir true g (x.Dir f) = true) ∧
    (x.Dir f ∈ (GlobsDirs x dir gs).1 ↔
      ∀ pre g post, gs = pre ++ g :: post → contributes x dir true g (x.Dir f) = true →
        (∀ h ∈ post, contributes x dir true h (x.Dir f) = false) → g.Negate = false) := by
  obtain ⟨pre, g, post, hgs, hc, _, _⟩ := (mem_globs x dir gs false f).1 hf
  obtain ⟨g1, fs, he, hz, hs, f1, hf1, info, hi, hr⟩ := (contributes_iff x dir false g f).1 hc
  simp only [recorded, Bool.false_eq_true, if_false] at hr
  have hd : info.IsDir = false := by
    cases hd : info.IsDir with
    | true => simp [hd] at hr
    | false => rfl
  simp only [hd, Bool.false_eq_true, if_false, Option.some.injEq] at hr
  subst hr
  have hcd : contributes x dir true g (x.Dir f1) = true :=
    (contributes_iff x dir true g (x.Dir f1)).2
      ⟨g1, fs, he, hz, hs, f1, hf1, info, hi, by simp [recorded, hd]⟩
  have hmem : g ∈ gs := by rw [hgs]; simp
  refine ⟨⟨g, hmem, hcd⟩, ?_, ?_⟩
  · intro hin pre1 k post1 hgs1 hck hpost1
    obtain ⟨pre0, g0, post0, hgs0, hc0, hn0, hpost0⟩ :=
      (mem_globs x dir gs true (x.Dir f1)).1 hin
    have heq : k = g0 :=
      last_unique (fun k => contributes x dir true k (x.Dir f1)) pre1 post1 pre0 post0 k g0
        (hgs1.symm.trans hgs0) hck hpost1 hc0 hpost0
    rw [heq]
    exact hn0
  · intro hall
    obtain ⟨pre0, g0, post0, hgs0, hc0, hpost0⟩ :=
      exists_last (fun k => contributes x dir true k (x.Dir f1)) gs ⟨g, hmem, hcd⟩
    exact (mem_globs x dir gs true (x.Dir f1)).2
      ⟨pre0, g0, post0, hgs0, hc0, hall pre0 g0 post0 hgs0 hc0 hpost0, hpost0⟩

/-- C9 amended, on the project: the negated `a/*.txt` contributes the directory
`/proj/a` but `a/*.go` after it is the last to contribute it, so the directory
of `a/x.go` is returned; with the two patterns swapped the negated pattern is
the last and the directory is not returned. -/
theorem parent_in_dirs_iff_last_not_negated_witness :
    ("/proj/a/x.go" ∈
        (Globs Demo.world "/proj" [⟨"a/*.txt", true⟩, ⟨"a/*.go", false⟩]).1 ∧
      contributes Demo.world "/proj" true ⟨"a/*.txt", true⟩ (Demo.world.Dir "/proj/a/x.go")
        = true) ∧
    Demo.world.Dir "/proj/a/x.go" ∈
      (GlobsDirs Demo.world "/proj" [⟨"a/*.txt", true⟩, ⟨"a/*.go", false⟩]).1 ∧
    ¬ (∀ pre g post, [(⟨"a/*.go", false⟩ : ast.Glob), ⟨"a/*.txt", true⟩] = pre ++ g :: post →
        contributes Demo.world "/proj" true g (Demo.world.Dir "/proj/a/x.go") = true →
        (∀ h ∈ post, contributes Demo.world "/proj" true h (Demo.world.Dir "/proj/a/x.go")
          = false) → g.Negate = false) :=
  ⟨⟨by decide, by decide⟩,
    (parent_in_dirs_iff_last_not_negated Demo.world "/proj"
      [⟨"a/*.txt", true⟩, ⟨"a/*.go", false⟩] "/proj/a/x.go" (by decide)).2.2
      (fun pre g post hgs hc hpost =>
        ((parent_in_dirs_iff_last_not_negated Demo.world "/proj"
          [⟨"a/*.txt", true⟩, ⟨"a/*.go", false⟩] "/proj/a/x.go" (by decide)).2.1 (by decide))
          pre g post hgs hc hpost),
    fun hall =>
      absurd
        ((parent_in_dirs_iff_last_not_negated Demo.world "/proj"
          [⟨"a/*.go", false⟩, ⟨"a/*.txt", true⟩] "/proj/a/x.go" (by decide)).2.2 hall)
        (by decide)⟩

end Fingerprint

namespace Watch

open Fingerprint

/-! ## `ShouldIgnoreFile` -/

theorem stringsContains_iff (s substr : String) :
    stringsContains s substr = true ↔ substr.data <:+: s.data := by
  unfold stringsContains
  rw [List.any_eq_true, List.infix_iff_prefix_suffix]
  constructor
  · rintro ⟨t, ht, hp⟩
    exact ⟨t, List.isPrefixOf_iff_prefix.1 hp, (List.mem_tails t s.data).1 ht⟩
  · rintro ⟨t, hp, ht⟩
    exact ⟨t, (List.mem_tails t s.data).2 ht, List.isPrefixOf_iff_prefix.2 hp⟩

theorem stringsHasSuffix_iff (s suffix : String) :
    stringsHasSuffix s suffix = true ↔ suffix.data <:+ s.data := by
  unfold stringsHasSuffix
  exact List.isSuffixOf_iff_suffix

theorem ShouldIgnoreFile_iff (path : String) :
    ShouldIgnoreFile path = true ↔
      ∃ name ∈ ignoredNames,
        ('/' :: name.data ++ ['/']) <:+: path.data ∨ ('/' :: name.data) <:+ path.data := by
  unfold ShouldIgnoreFile ignorePaths ignoredNames
  simp only [List.any_cons, List.any_nil, Bool.or_false, Bool.or_eq_true, stringsContains_iff,
    stringsHasSuffix_iff, String.data_append, List.mem_cons, List.mem_singleton,
    List.not_mem_nil, or_false, exists_eq_or_imp, exists_eq_left]

theorem segs_append_slash (a b : List Char) :
    (splitSlash (a ++ '/' :: b)).1 = (splitSlash a).1 ∧
    (splitSlash (a ++ '/' :: b)).2
      = (splitSlash a).2 ++ ((splitSlash b).1 :: (splitSlash b).2) := by
  induction a with
  | nil => simp [splitSlash]
  | cons c a ih =>
    by_cases hc : c = '/'
    · simp [splitSlash, hc, ih.1, ih.2]
    · simp [splitSlash, hc, ih.1, ih.2]

theorem splitSlash_no_slash (s : List Char) (h : '/' ∉ s) : splitSlash s = (s, []) := by
  induction s with
  | nil => rfl
  | cons c s ih =>
    simp only [List.mem_cons, not_or] at h
    have hc : c ≠ '/' := fun hc => h.1 hc.symm
    simp [splitSlash, hc, ih h.2]

theorem splitSlash_head (l : List Char) :
    l = (splitSlash l).1 ∨ ∃ b, l = (splitSlash l).1 ++ '/' :: b := by
  induction l with
  | nil => exact Or.inl rfl
  | cons c l ih =>
    by_cases hc : c = '/'
    · subst hc
      exact Or.inr ⟨l, by simp [splitSlash]⟩
    · rcases ih with h | ⟨b, h⟩
      · left
        simp only [splitSlash, hc, if_false]
        rw [← h]
      · right
        refine ⟨b, ?_⟩
        simp only [splitSlash, hc, if_false, List.cons_append]
        rw [← h]

theorem splitSlash_tail (l : List Char) (s : List Char) (h : s ∈ (splitSlash l).2) :
    ∃ a, l = a ++ '/' :: s ∨ ∃ b, l = a ++ '/' :: s ++ '/' :: b := by
  induction l with
  | nil => simp [splitSlash] at h
  | cons c l ih =>
    by_cases hc : c = '/'
    · subst hc
      simp only [splitSlash, if_true, List.mem_cons] at h
      rcases h with h | h
      · subst h
        refine ⟨[], ?_⟩
        rcases splitSlash_head l with h1 | ⟨b, h1⟩
        · left
          simp only [List.nil_append]
          rw [← h1]
        · right
          refine ⟨b, ?_⟩
          simp only [List.nil_append, List.cons_append]
          rw [← h1]
      · obtain ⟨a, h1 | ⟨b, h1⟩⟩ := ih h
        · exact ⟨'/' :: a, Or.inl (by rw [h1]; rfl)⟩
        · exact ⟨'/' :: a, Or.inr ⟨b, by rw [h1]; rfl⟩⟩
    · simp only [splitSlash, hc, if_false] at h
      obtain ⟨a, h1 | ⟨b, h1⟩⟩ := ih h
      · exact ⟨c :: a, Or.inl (by rw [h1]; rfl)⟩
      · exact ⟨c :: a, Or.inr ⟨b, by rw [h1]; rfl⟩⟩

theorem ignoredNames_no_slash (name : String) (h : name ∈ ignoredNames) :
    '/' ∉ name.data := by
  unfold ignoredNames at h
  simp only [List.mem_cons, List.mem_singleton, List.not_mem_nil, or_false] at h
  rcases h with rfl | rfl | rfl | rfl <;> decide

/-- A path with an ignored name between two separators, or after the last
separator, has that name among the segments after the first. -/
theorem mem_tail_of_slashed (name : String) (hn : '/' ∉ name.data) (path : String)
    (h : ('/' :: name.data ++ ['/']) <:+: path.data ∨ ('/' :: name.data) <:+ path.data) :
    name.data ∈ (splitSlash path.data).2 := by
  rcases h with ⟨a, b, h⟩ | ⟨a, h⟩
  · have h1 : path.data = a ++ '/' :: (name.data ++ '/' :: b) := by
      rw [← h]; simp
    rw [h1, (segs_append_slash a _).2, (segs_append_slash name.data b).1,
      splitSlash_no_slash name.data hn]
    simp
  · rw [← h, (segs_append_slash a _).2, splitSlash_no_slash name.data hn]
    simp

theorem mem_segments_tail_iff (name path : String) :
    name ∈ (segments path).tail ↔ name.data ∈ (splitSlash path.data).2 := by
  unfold segments
  simp only [List.map_cons, List.tail_cons, List.mem_map]
  constructor
  · rintro ⟨s, hs, rfl⟩
    exact hs
  · intro h
    exact ⟨name.data, h, rfl⟩

/-- The function `ShouldIgnoreFile` is true exactly on the paths that have an
ignored name as a segment other than the first. -/
theorem ShouldIgnoreFile_iff_segment (path : String) :
    ShouldIgnoreFile path = true ↔ ∃ name ∈ ignoredNames, name ∈ (segments path).tail := by
  rw [ShouldIgnoreFile_iff]
  constructor
  · rintro ⟨name, hn, h⟩
    exact ⟨name, hn, (mem_segments_tail_iff name path).2
      (mem_tail_of_slashed name (ignoredNames_no_slash name hn) path h)⟩
  · rintro ⟨name, hn, h⟩
    refine ⟨name, hn, ?_⟩
    obtain ⟨a, h1 | ⟨b, h1⟩⟩ :=
      splitSlash_tail path.data name.data ((mem_segments_tail_iff name path).1 h)
    · exact Or.inr ⟨a, h1.symm⟩
    · exact Or.inl ⟨a, b, by rw [h1]; simp⟩

end Watch

namespace Watch

open Fingerprint

/-! ## The invariant of `registerWatchedDirs` -/

theorem get_set_true (m : GoMap) (h : GoMap.WF m) (d k : String) :
    GoMap.get (GoMap.set m d true) k = true ↔ k = d ∨ GoMap.get m k = true := by
  rw [GoMap.get_eq_true _ (GoMap.WF_set m d true h), GoMap.mem_set_true, GoMap.get_eq_true m h]

theorem Inv.final {base : List String} {st : RegState} (h : Inv base st) : Final base st := by
  obtain ⟨_, new, h1, h2, _, h4⟩ := h
  exact ⟨new, h1, h2, h4⟩

theorem Grows.refl (st : RegState) : Grows st st :=
  ⟨fun _ h => h, List.prefix_refl _, rfl⟩

theorem Grows.trans {a b c : RegState} (h1 : Grows a b) (h2 : Grows b c) : Grows a c :=
  ⟨fun d h => h2.1 d (h1.1 d h), List.IsPrefix.trans h1.2.1 h2.2.1, h2.2.2.trans h1.2.2⟩

theorem good_stop (r : Ret) (hr : r ≠ Ret.nil) : Good (fun st => (st, r)) := by
  intro base st h
  exact ⟨h.final, Grows.refl st, fun h1 => absurd h1 hr⟩

theorem addDirs_good (dirs : List String) : Good (addDirs dirs) := by
  induction dirs with
  | nil =>
    intro base st h
    exact ⟨h.final, Grows.refl st, fun _ => h⟩
  | cons d ds ih =>
    intro base st h
    unfold addDirs
    by_cases hg : st.watchedDirs.get d = true
    · simp only [hg, if_true]
      exact ih base st h
    · simp only [hg, Bool.false_eq_true, if_false]
      by_cases hi : ShouldIgnoreFile d = true
      · simp only [hi, if_true]
        exact ih base st h
      · simp only [hi, Bool.false_eq_true, if_false, Watcher.Add]
        obtain ⟨hwf, new, h1, h2, h3, h4⟩ := h
        have hd : d ∉ new := fun hmem => hg (h3 d hmem)
        have hnodup : (new ++ [d]).Nodup := by
          rw [List.nodup_append]
          refine ⟨h2, by simp, ?_⟩
          intro a ha ha'
          simp only [List.mem_singleton] at ha'
          subst ha'
          exact hd ha
        have hign : ∀ k ∈ new ++ [d], ShouldIgnoreFile k = false := by
          intro k hk
          rcases List.mem_append.1 hk with hk | hk
          · exact h4 k hk
          · simp only [List.mem_singleton] at hk
            subst hk
            simpa using hi
        have hcalls : st.w.addCalls ++ [d] = base ++ (new ++ [d]) := by
          rw [h1, List.append_assoc]
        cases hf : st.w.addFails st.w.addCalls d with
        | some err =>
          simp only
          refine ⟨⟨new ++ [d], hcalls, hnodup, hign⟩, ⟨fun _ hk => hk, ?_, rfl⟩, ?_⟩
          · exact List.prefix_append _ _
          · intro hnil
            cases hnil
        | none =>
          simp only
          have hinv : Inv base
              { watchedDirs := st.watchedDirs.set d true,
                w := { st.w with addCalls := st.w.addCalls ++ [d] } } := by
            refine ⟨GoMap.WF_set _ d true hwf, new ++ [d], hcalls, hnodup, ?_, hign⟩
            intro k hk
            rw [get_set_true _ hwf]
            rcases List.mem_append.1 hk with hk | hk
            · exact Or.inr (h3 k hk)
            · simp only [List.mem_singleton] at hk
              exact Or.inl hk
          have hgrow : Grows st
              { watchedDirs := st.watchedDirs.set d true,
                w := { st.w with addCalls := st.w.addCalls ++ [d] } } := by
            refine ⟨?_, List.prefix_append _ _, rfl⟩
            intro k hk
            rw [get_set_true _ hwf]
            exact Or.inr hk
          obtain ⟨r1, r2, r3⟩ := ih base _ hinv
          exact ⟨r1, hgrow.trans r2, r3⟩

theorem good_seq (f : RegState → RegState × Ret) (g : RegState → RegState × Ret)
    (hf : Good f) (hg : Good g) :
    Good (fun st => match f st with
      | (st1, Ret.nil) => g st1
      | r => r) := by
  intro base st h
  obtain ⟨f1, f2, f3⟩ := hf base st h
  beta_reduce
  generalize f st = res at f1 f2 f3
  obtain ⟨st1, r⟩ := res
  cases r with
  | nil =>
    obtain ⟨g1, g2, g3⟩ := hg base st1 (f3 rfl)
    exact ⟨g1, f2.trans g2, g3⟩
  | err e => exact ⟨f1, f2, fun h1 => by cases h1⟩
  | outOfFuel => exact ⟨f1, f2, fun h1 => by cases h1⟩

theorem good_nil : Good (fun st => (st, Ret.nil)) := by
  intro base st h
  exact ⟨h.final, Grows.refl st, fun _ => h⟩

theorem forDeps_good (rec : ast.Call → RegState → RegState × Ret) (h : ∀ c, Good (rec c))
    (ds : List ast.Dep) : Good (forDeps rec ds) := by
  induction ds with
  | nil => exact good_nil
  | cons d ds ih => exact good_seq _ _ (h _) ih

theorem forCmds_good (rec : ast.Call → RegState → RegState × Ret) (h : ∀ c, Good (rec c))
    (cs : List ast.Cmd) : Good (forCmds rec cs) := by
  induction cs with
  | nil => exact good_nil
  | cons c cs ih =>
    by_cases hc : c.Task = ""
    · have : forCmds rec (c :: cs) = forCmds rec cs := by
        funext st
        simp [forCmds, hc]
      rw [this]
      exact ih
    · have : forCmds rec (c :: cs) = (fun st =>
          match rec { Task := c.Task, Vars := c.Vars } st with
          | (st1, Ret.nil) => forCmds rec cs st1
          | r => r) := by
        funext st
        simp [forCmds, hc]
      rw [this]
      exact good_seq _ _ (h _) ih

theorem forCalls_good (rec : ast.Call → RegState → RegState × Ret) (h : ∀ c, Good (rec c))
    (cs : List ast.Call) : Good (forCalls rec cs) := by
  induction cs with
  | nil => exact good_nil
  | cons c cs ih => exact good_seq _ _ (h _) ih

theorem registerTaskDirs_good (x : World) (e : Executor) (fuel : Nat) :
    ∀ c, Good (registerTaskDirs x e fuel c) := by
  induction fuel with
  | zero =>
    intro c
    exact good_stop Ret.outOfFuel (by decide)
  | succ fuel ih =>
    intro c
    cases hc : e.CompiledTask c with
    | error err =>
      have : registerTaskDirs x e (fuel + 1) c = fun st => (st, Ret.err err) := by
        funext st
        simp [registerTaskDirs, hc]
      rw [this]
      exact good_stop _ (by simp)
    | ok task =>
      have : registerTaskDirs x e (fuel + 1) c = (fun st =>
          match forDeps (registerTaskDirs x e fuel) task.Deps st with
          | (st1, Ret.nil) =>
            (fun st1 =>
              match forCmds (registerTaskDirs x e fuel) task.Cmds st1 with
              | (st2, Ret.nil) => addDirs (GlobsDirs x task.Dir task.Sources).1 st2
              | r => r) st1
          | r => r) := by
        funext st
        simp only [registerTaskDirs, hc]
        rfl
      rw [this]
      exact good_seq _ _ (forDeps_good _ ih _)
        (good_seq _ _ (forCmds_good _ ih _) (addDirs_good _))

theorem Inv_init (w : Watcher) : Inv w.addCalls { watchedDirs := [], w := w } :=
  ⟨GoMap.WF_nil, [], by simp, List.nodup_nil, by simp, by simp⟩

theorem Inv_of_WF (st : RegState) (h : GoMap.WF st.watchedDirs) : Inv st.w.addCalls st :=
  ⟨h, [], by simp, List.nodup_nil, by simp, by simp⟩

theorem registerWatchedDirs_final (x : World) (e : Executor) (fuel : Nat) (w : Watcher)
    (calls : List ast.Call) :
    Final w.addCalls (registerWatchedDirs x e fuel w calls).1 :=
  (forCalls_good _ (registerTaskDirs_good x e fuel) calls _ _ (Inv_init w)).1

end Watch

namespace Watch

open Fingerprint

/-! ## The depth bound

A run that is not cut off by the bound is the same run under every larger
bound. -/

/-- The recursive call `rec1` agrees with `rec` wherever `rec` is not cut off. -/
theorem seq_mono (f f1 g g1 : RegState → RegState × Ret) (st : RegState)
    (hf : (f st).2 ≠ Ret.outOfFuel → f1 st = f st)
    (hg : ∀ s, (g s).2 ≠ Ret.outOfFuel → g1 s = g s)
    (h : (match f st with
      | (st1, Ret.nil) => g st1
      | r => r).2 ≠ Ret.outOfFuel) :
    (match f1 st with
      | (st1, Ret.nil) => g1 st1
      | r => r)
    = (match f st with
      | (st1, Ret.nil) => g st1
      | r => r) := by
  cases hfs : f st with
  | mk st1 r =>
    rw [hfs] at h hf
    cases r with
    | nil =>
      rw [hf (by simp)]
      exact hg st1 h
    | err e =>
      rw [hf (by simp)]
    | outOfFuel =>
      exact absurd rfl h

theorem forDeps_mono (rec rec1 : ast.Call → RegState → RegState × Ret)
    (h : ∀ c st, (rec c st).2 ≠ Ret.outOfFuel → rec1 c st = rec c st) (ds : List ast.Dep) :
    ∀ st, (forDeps rec ds st).2 ≠ Ret.outOfFuel → forDeps rec1 ds st = forDeps rec ds st := by
  induction ds with
  | nil => intro st _; rfl
  | cons d ds ih =>
    intro st hst
    exact seq_mono _ _ _ _ st (h _ st) ih hst

theorem forCalls_mono (rec rec1 : ast.Call → RegState → RegState × Ret)
    (h : ∀ c st, (rec c st).2 ≠ Ret.outOfFuel → rec1 c st = rec c st) (cs : List ast.Call) :
    ∀ st, (forCalls rec cs st).2 ≠ Ret.outOfFuel → forCalls rec1 cs st = forCalls rec cs st := by
  induction cs with
  | nil => intro st _; rfl
  | cons c cs ih =>
    intro st hst
    exact seq_mono _ _ _ _ st (h _ st) ih hst

theorem forCmds_mono (rec rec1 : ast.Call → RegState → RegState × Ret)
    (h : ∀ c st, (rec c st).2 ≠ Ret.outOfFuel → rec1 c st = rec c st) (cs : List ast.Cmd) :
    ∀ st, (forCmds rec cs st).2 ≠ Ret.outOfFuel → forCmds rec1 cs st = forCmds rec cs st := by
  induction cs with
  | nil => intro st _; rfl
  | cons c cs ih =>
    intro st hst
    by_cases hc : c.Task = ""
    · simp only [forCmds, hc, ne_eq, not_true_eq_false, if_false] at hst ⊢
      exact ih st hst
    · simp only [forCmds, hc, ne_eq, not_false_eq_true, if_true] at hst ⊢
      exact seq_mono _ _ _ _ st (h _ st) ih hst

theorem registerTaskDirs_succ (x : World) (e : Executor) (fuel : Nat) :
    ∀ c st, (registerTaskDirs x e fuel c st).2 ≠ Ret.outOfFuel →
      registerTaskDirs x e (fuel + 1) c st = registerTaskDirs x e fuel c st := by
  induction fuel with
  | zero =>
    intro c st h
    exact absurd rfl h
  | succ fuel ih =>
    intro c st h
    cases hc : e.CompiledTask c with
    | error err => simp [registerTaskDirs, hc]
    | ok task =>
      have hbody : ∀ n, registerTaskDirs x e (n + 1) c st =
          (match forDeps (registerTaskDirs x e n) task.Deps st with
          | (st1, Ret.nil) =>
            (fun st1 =>
              match forCmds (registerTaskDirs x e n) task.Cmds st1 with
              | (st2, Ret.nil) => addDirs (GlobsDirs x task.Dir task.Sources).1 st2
              | r => r) st1
          | r => r) := by
        intro n
        simp only [registerTaskDirs, hc]
        rfl
      rw [hbody (fuel + 1), hbody fuel]
      rw [hbody fuel] at h
      refine seq_mono _ _ _ _ st (forDeps_mono _ _ ih task.Deps st) ?_ h
      intro s hs
      exact seq_mono _ _ _ _ s (forCmds_mono _ _ ih task.Cmds s) (fun _ _ => rfl) hs

theorem registerTaskDirs_mono (x : World) (e : Executor) (fuel k : Nat) :
    ∀ c st, (registerTaskDirs x e fuel c st).2 ≠ Ret.outOfFuel →
      registerTaskDirs x e (fuel + k) c st = registerTaskDirs x e fuel c st := by
  induction k with
  | zero => intro c st _; rfl
  | succ k ih =>
    intro c st h
    have h1 := ih c st h
    rw [← Nat.add_assoc, registerTaskDirs_succ x e (fuel + k) c st (by rw [h1]; exact h), h1]

theorem registerWatchedDirs_mono (x : World) (e : Executor) (fuel k : Nat) (w : Watcher)
    (calls : List ast.Call)
    (h : (registerWatchedDirs x e fuel w calls).2 ≠ Ret.outOfFuel) :
    registerWatchedDirs x e (fuel + k) w calls = registerWatchedDirs x e fuel w calls :=
  forCalls_mono _ _ (registerTaskDirs_mono x e fuel k) calls _ h

end Watch

namespace Watch

open Fingerprint

/-! ## The claims on the watcher -/

/-- C6 as stated fails: `.git` is the only segment of the relative path `.git`,
and `node_modules` is the first segment of `node_modules/pkg`, yet
`ShouldIgnoreFile` returns false on both. -/
theorem ignore_any_segment_counterexample :
    ".git" ∈ ignoredNames ∧ ".git" ∈ segments ".git" ∧ ShouldIgnoreFile ".git" = false ∧
    "node_modules" ∈ ignoredNames ∧ "node_modules" ∈ segments "node_modules/pkg" ∧
    ShouldIgnoreFile "node_modules/pkg" = false := by
  decide

/-- C6 amended: `ShouldIgnoreFile` returns true on every path that has `.task`,
`.git`, `.hg` or `node_modules` as a segment other than its first, that is
with a separator before it, and `registerWatchedDirs` passes no path on which
`ShouldIgnoreFile` returns true to the watcher. -/
theorem ignore_segment_after_first (path name : String) (hn : name ∈ ignoredNames)
    (hs : name ∈ (segments path).tail) :
    ShouldIgnoreFile path = true ∧
    ∀ (x : World) (e : Executor) (fuel : Nat) (w : Watcher) (calls : List ast.Call),
      ∃ new, (registerWatchedDirs x e fuel w calls).1.w.addCalls = w.addCalls ++ new ∧
        ∀ d ∈ new, ShouldIgnoreFile d = false := by
  refine ⟨(ShouldIgnoreFile_iff_segment path).2 ⟨name, hn, hs⟩, ?_⟩
  intro x e fuel w calls
  obtain ⟨new, h1, _, h3⟩ := registerWatchedDirs_final x e fuel w calls
  exact ⟨new, h1, h3⟩

/-- C6 amended, on `build/.task/checksums`. -/
theorem ignore_segment_after_first_witness :
    (".task" ∈ ignoredNames ∧ ".task" ∈ (segments "build/.task/checksums").tail) ∧
    ShouldIgnoreFile "build/.task/checksums" = true :=
  ⟨⟨by decide, by decide⟩,
    (ignore_segment_after_first "build/.task/checksums" ".task" (by decide) (by decide)).1⟩

/-- C7: `ShouldIgnoreFile` matches whole segments only. When it returns true,
some segment of the path is exactly `.task`, `.git`, `.hg` or `node_modules`;
a path whose segments only contain such a name as a substring is not ignored. -/
theorem ignore_only_full_segment (path : String) (h : ShouldIgnoreFile path = true) :
    (∃ name ∈ ignoredNames, name ∈ segments path) ∧
    ShouldIgnoreFile "/a/.github" = false ∧ ShouldIgnoreFile "/a/.gitignore" = false ∧
    ShouldIgnoreFile "/a/x.git" = false ∧ ShouldIgnoreFile "/a/node_modules_old/b" = false ∧
    ShouldIgnoreFile "/a/.tasks" = false := by
  refine ⟨?_, by decide, by decide, by decide, by decide, by decide⟩
  obtain ⟨name, hn, hs⟩ := (ShouldIgnoreFile_iff_segment path).1 h
  exact ⟨name, hn, List.mem_of_mem_tail hs⟩

/-- C7 on `repo/.git/objects`. -/
theorem ignore_only_full_segment_witness :
    ShouldIgnoreFile "repo/.git/objects" = true ∧
    ∃ name ∈ ignoredNames, name ∈ segments "repo/.git/objects" :=
  ⟨by decide, (ignore_only_full_segment "repo/.git/objects" (by decide)).1⟩

/-- C8: no directory is added twice. In one run of `registerWatchedDirs`, cut
off at any depth or not, the paths passed to `Add` are pairwise distinct;
every call of `registerTaskDirs` only grows the watched set and the history of
`Add`; and a run that is not cut off is the same run under every larger bound
on the depth. -/
theorem no_directory_added_twice (x : World) (e : Executor) (fuel : Nat) (w : Watcher)
    (calls : List ast.Call) :
    (∃ new, (registerWatchedDirs x e fuel w calls).1.w.addCalls = w.addCalls ++ new ∧
      new.Nodup) ∧
    (∀ (c : ast.Call) (st : RegState), GoMap.WF st.watchedDirs →
      Grows st (registerTaskDirs x e fuel c st).1) ∧
    ∀ k : Nat, (registerWatchedDirs x e fuel w calls).2 ≠ Ret.outOfFuel →
      registerWatchedDirs x e (fuel + k) w calls = registerWatchedDirs x e fuel w calls := by
  refine ⟨?_, ?_, ?_⟩
  · obtain ⟨new, h1, h2, _⟩ := registerWatchedDirs_final x e fuel w calls
    exact ⟨new, h1, h2⟩
  · intro c st hwf
    exact (registerTaskDirs_good x e fuel c _ st (Inv_of_WF st hwf)).2.1
  · intro k h
    exact registerWatchedDirs_mono x e fuel k w calls h

/-- C8 on the project: `build` is listed twice and reaches `gen` and `lint`,
`gen` is listed again, and all of them have sources in `/proj` or `/proj/a`;
the run returns nil and each of the two directories is added once. -/
theorem no_directory_added_twice_witness :
    (registerWatchedDirs Demo.world Demo.executor 5 Demo.watcher
        [⟨"build", []⟩, ⟨"build", []⟩, ⟨"gen", []⟩]).2 = Ret.nil ∧
    (registerWatchedDirs Demo.world Demo.executor 5 Demo.watcher
        [⟨"build", []⟩, ⟨"build", []⟩, ⟨"gen", []⟩]).1.w.addCalls = ["/proj/a", "/proj"] ∧
    (∃ new, (registerWatchedDirs Demo.world Demo.executor 5 Demo.watcher
        [⟨"build", []⟩, ⟨"build", []⟩, ⟨"gen", []⟩]).1.w.addCalls
          = Demo.watcher.addCalls ++ new ∧ new.Nodup) ∧
    GoMap.WF [] ∧
    Grows { watchedDirs := [], w := Demo.watcher }
      (registerTaskDirs Demo.world Demo.executor 5 ⟨"build", []⟩
        { watchedDirs := [], w := Demo.watcher }).1 :=
  ⟨by decide, by decide,
    (no_directory_added_twice Demo.world Demo.executor 5 Demo.watcher
      [⟨"build", []⟩, ⟨"build", []⟩, ⟨"gen", []⟩]).1,
    GoMap.WF_nil,
    (no_directory_added_twice Demo.world Demo.executor 5 Demo.watcher []).2.1 ⟨"build", []⟩
      { watchedDirs := [], w := Demo.watcher } GoMap.WF_nil⟩

theorem react_runTask_iff (x : World) (e : Executor) (event : Event) (c : ast.Call) :
    react x e event c = Reaction.runTask ↔
      ∃ t, e.GetTask c = Except.ok t ∧ relPath x e event ∈ (Globs x t.Dir t.Sources).1 := by
  unfold react
  cases hg : e.GetTask c with
  | error err => simp
  | ok t =>
    have h2 : (Globs x t.Dir t.Sources).2 = none := rfl
    cases hG : Globs x t.Dir t.Sources with
    | mk files err =>
      rw [hG] at h2
      simp only at h2
      subst h2
      by_cases hm : relPath x e event ∈ files <;> simp [hG, hm]

/-- C10: the decision to run again. An event starts a new execution of a
watched call exactly when its operation is not `Chmod` alone, the task
resolves, and the event path relative to the directory of the executor is in
`Globs(t.Dir, t.Sources)` of the resolved task; an event that is `Chmod` alone
starts nothing and does not reset the cache of the compiler, any other event
resets it, and each watched call is decided on its own. -/
theorem rerun_decision (x : World) (e : Executor) (calls : List ast.Call) (event : Event)
    (c : ast.Call) :
    (c ∈ started x e calls event ↔
      c ∈ calls ∧ event.Op ≠ Chmod ∧
        ∃ t, e.GetTask c = Except.ok t ∧
          relPath x e event ∈ (Globs x t.Dir t.Sources).1) ∧
    (event.Op = Chmod →
      onEvent x e calls event = { resetCache := false, reactions := [] } ∧
      started x e calls event = []) ∧
    (event.Op ≠ Chmod → (onEvent x e calls event).resetCache = true) ∧
    (∀ cs1 cs2 : List ast.Call,
      started x e (cs1 ++ cs2) event = started x e cs1 event ++ started x e cs2 event) := by
  refine ⟨?_, ?_, ?_, ?_⟩
  · unfold started onEvent
    by_cases hop : event.Op = Chmod
    · simp [hop]
    · simp only [hop, if_false, List.mem_map, List.mem_filter, decide_eq_true_eq, ne_eq,
        not_false_eq_true, true_and, ← react_runTask_iff]
      constructor
      · rintro ⟨⟨c1, r⟩, ⟨⟨c2, hc2, heq⟩, hr⟩, rfl⟩
        simp only [Prod.mk.injEq] at heq
        obtain ⟨rfl, rfl⟩ := heq
        exact ⟨hc2, hr⟩
      · rintro ⟨hc, hr⟩
        exact ⟨(c, react x e event c), ⟨⟨c, hc, rfl⟩, hr⟩, rfl⟩
  · intro hop
    simp [started, onEvent, hop]
  · intro hop
    simp [onEvent, hop]
  · intro cs1 cs2
    unfold started onEvent
    by_cases hop : event.Op = Chmod
    · simp [hop]
    · simp [hop]

/-- C10 on the project: a write to `a/x.go` runs `build` and `gen` again, whose
sources hold the relative path `a/x.go`, and not `lint`, whose sources do not;
a `Chmod` of the same file runs nothing. -/
theorem rerun_decision_witness :
    started Demo.world Demo.executor [⟨"build", []⟩, ⟨"gen", []⟩, ⟨"lint", []⟩]
        ⟨"/proj/a/x.go", Write⟩
      = [⟨"build", []⟩, ⟨"gen", []⟩] ∧
    ((⟨"/proj/a/x.go", Chmod⟩ : Event).Op = Chmod ∧
      onEvent Demo.world Demo.executor [⟨"build", []⟩, ⟨"gen", []⟩, ⟨"lint", []⟩]
          ⟨"/proj/a/x.go", Chmod⟩
        = { resetCache := false, reactions := [] }) :=
  ⟨by decide,
    rfl,
    ((rerun_decision Demo.world Demo.executor [⟨"build", []⟩, ⟨"gen", []⟩, ⟨"lint", []⟩]
      ⟨"/proj/a/x.go", Chmod⟩ ⟨"build", []⟩).2.1 rfl).1⟩

end Watch
